import Mathlib

/-!
Shallow embedding of the MIR core of the `qin` guitar-practice repository:
the online-DTW score follower, chroma extraction and the reference builder
(`src/guitar-pro/src/mir/alignment.py`) together with the pitch-tracker
front end (`src/guitar-pro/src/mir/pitch.py`).

Modelling conventions.  The Python code computes with IEEE floats; here the
purely arithmetical parts (OLTW, the reference builder, `check_chroma_hit`,
`get_active_notes`, `PitchTracker.predict`) are generic over a
`LinearOrderedField`, so every statement can be instantiated at `ℚ` and
evaluated, while the transcendental DSP parts (FFT, `log2`, square roots)
are embedded over `ℝ`.  The IEEE `+inf` sentinel used by the accumulated
cost arrays is modelled by `Option` (`none` = `inf`), with the arithmetic
on it (`inf + x = inf`, `min`, comparisons) spelled out exactly as IEEE
behaves on the values the program produces.  Decimal literals of the
source (`0.1`, `0.3`, `1.5`, `2.5`, `1e-6`) are modelled as the exact
rationals they denote.
-/

namespace Qin

/-- Extended cost value: `none` models the IEEE `+inf` sentinel that
`alignment.py` stores in its accumulated-cost arrays, `some a` a finite
cost. -/
abbrev Cost (α : Type) := Option α

namespace Cost

/-- The `+inf` sentinel (`np.inf`). -/
def inf {α : Type} : Cost α := none

/-- A finite cost value. -/
def fin {α : Type} (a : α) : Cost α := some a

/-- Adding a finite float to a cost; IEEE: `inf + x = inf`. -/
def add {α : Type} [Add α] (c : Cost α) (x : α) : Cost α :=
  c.map (fun a => a + x)

/-- Binary minimum of two costs; IEEE: `min` never prefers `inf` over a
finite value. -/
def minC {α : Type} [LinearOrder α] : Cost α → Cost α → Cost α
  | none, b => b
  | some a, none => some a
  | some a, some b => some (min a b)

/-- Python `min` over a list of costs, as used on `prev_costs`; the empty
case is never taken by the guarded source (`if prev_costs:`), and there the
target array slot keeps its `inf` initialisation, which `inf` models. -/
def minList {α : Type} [LinearOrder α] : List (Cost α) → Cost α
  | [] => inf
  | x :: xs => xs.foldl minC x

/-- IEEE strict `<` on cost values: nothing is below `inf`, every finite
value is below `inf`. -/
def ltB {α : Type} [LinearOrder α] : Cost α → Cost α → Bool
  | none, _ => false
  | some _, none => true
  | some a, some b => decide (a < b)

/-- IEEE `≤` on cost values (`inf ≤ inf` holds). -/
def leB {α : Type} [LinearOrder α] : Cost α → Cost α → Bool
  | none, none => true
  | none, some _ => false
  | some _, none => true
  | some a, some b => decide (a ≤ b)

/-- Running value of the scan performed by `np.argmin`: the minimum of
`best` and the list, keeping the earlier value on ties. -/
def scanMin {α : Type} [LinearOrder α] : Cost α → List (Cost α) → Cost α
  | best, [] => best
  | best, x :: xs => scanMin (if ltB x best then x else best) xs

/-- Index scan of `np.argmin`: `best`/`bi` are the incumbent value and its
index, `i` the index of the head of the remaining list; strict `<` keeps
the first index attaining the minimum, as `numpy` does. -/
def argminGo {α : Type} [LinearOrder α] : Cost α → ℕ → ℕ → List (Cost α) → ℕ
  | _, bi, _, [] => bi
  | best, bi, i, x :: xs =>
      if ltB x best then argminGo x i (i + 1) xs else argminGo best bi (i + 1) xs

/-- `np.argmin` on a list of costs: first index attaining the minimum
(`0` on the empty list, which `numpy` rejects at runtime; the engine only
calls it on nonempty windows). -/
def argmin {α : Type} [LinearOrder α] : List (Cost α) → ℕ
  | [] => 0
  | x :: xs => argminGo x 0 1 xs

end Cost

/-- Initial accumulated-cost array of `OnlineDTW.__init__` and
`OnlineDTW.reset`: `np.zeros(N) + np.inf` with slot `0` overwritten by
`0`. -/
def initAcc {α : Type} [Zero α] (n : ℕ) : List (Cost α) :=
  (List.range n).map (fun i => if i = 0 then Cost.fin 0 else Cost.inf)

/-- State of `OnlineDTW` (`alignment.py`, lines 13-33): reference feature
matrix (one row per reference frame), stored search radius, current
position hypothesis, and the accumulated-cost array. -/
structure OnlineDTW (α : Type) where
  ref : List (List α)
  radius : ℕ
  current_position : ℕ
  accumulated_cost : List (Cost α)

namespace OnlineDTW

/-- `OnlineDTW.__init__` (lines 13-27).  The `radius` parameter is received
but the body assigns the literal `50` (`self.radius = 50`, line 22); the
cost array is seeded with `0` at reference frame `0` and `inf` elsewhere.
(`numpy` raises on an empty reference when writing `accumulated_cost[0]`,
so an empty reference never yields a live engine.) -/
def init {α : Type} [LinearOrderedField α] (reference_features : List (List α))
    (radius : ℕ) : OnlineDTW α :=
  { ref := reference_features
    radius := 50
    current_position := 0
    accumulated_cost := initAcc reference_features.length }

/-- `OnlineDTW.reset` (lines 29-33).  `self.N` is fixed at construction
from the reference's row count and the reference is never mutated, so
`s.ref.length` is that same value. -/
def reset {α : Type} [LinearOrderedField α] (s : OnlineDTW α) : OnlineDTW α :=
  { s with current_position := 0, accumulated_cost := initAcc s.ref.length }

/-- `np.dot` of two feature vectors. -/
def dot {α : Type} [LinearOrderedField α] (u v : List α) : α :=
  (List.zipWith (fun a b => a * b) u v).sum

/-- Local cost vector of `step` (line 50): `1.0 - np.dot(self.ref,
live_feature)`, one cosine distance per row of the whole reference. -/
def costVec {α : Type} [LinearOrderedField α] (s : OnlineDTW α) (live : List α) :
    List α :=
  s.ref.map (fun row => 1 - dot row live)

/-- Search-window start (line 58): `max(0, current_position - radius)`;
truncated `ℕ` subtraction is exactly this clamped difference. -/
def stepStart {α : Type} (s : OnlineDTW α) : ℕ :=
  s.current_position - s.radius

/-- Search-window end (line 59): `min(self.N, current_position + radius * 2)`. -/
def stepEnd {α : Type} (s : OnlineDTW α) : ℕ :=
  min s.ref.length (s.current_position + s.radius * 2)

/-- Body of the window loop of `step` (lines 61-78): the list of candidate
predecessor costs for reference index `i` (`prev_costs`) and their Python
`min`.  The `stay` candidate carries the source's bounds guard
`i < len(self.accumulated_cost)` (line 66, always true in well-formed
states); the advancing candidates require a valid predecessor index. -/
def entryCost {α : Type} [LinearOrderedField α] (acc : List (Cost α)) (cv : List α)
    (i : ℕ) : Cost α :=
  let c := cv.getD i 0
  let opts : List (Cost α) :=
    (if i < acc.length then [Cost.add (acc.getD i Cost.inf) (c * 2)] else [])
      ++ (if 1 ≤ i then [Cost.add (acc.getD (i - 1) Cost.inf) c] else [])
      ++ (if 2 ≤ i then [Cost.add (acc.getD (i - 2) Cost.inf) (c * (3 / 2))] else [])
  Cost.minList opts

/-- The fresh accumulated-cost array built by `step` (lines 55-80):
`np.zeros_like(self.accumulated_cost) + np.inf`, with the entries of the
search window overwritten by the loop. -/
def newAccumulated {α : Type} [LinearOrderedField α] (s : OnlineDTW α)
    (live : List α) : List (Cost α) :=
  (List.range s.accumulated_cost.length).map (fun i =>
    if stepStart s ≤ i ∧ i < stepEnd s then
      entryCost s.accumulated_cost (costVec s live) i
    else Cost.inf)

/-- `OnlineDTW.step` (lines 35-89): replaces the accumulated-cost array,
takes `np.argmin` of its window slice offset by the window start (line 86)
as the new position, and returns that index with the updated state. -/
def step {α : Type} [LinearOrderedField α] (s : OnlineDTW α) (live : List α) :
    ℕ × OnlineDTW α :=
  let na := newAccumulated s live
  let best :=
    stepStart s + Cost.argmin ((na.drop (stepStart s)).take (stepEnd s - stepStart s))
  (best, { s with accumulated_cost := na, current_position := best })

/-- Feeding a sequence of live feature vectors through `step`, collecting
the returned per-frame position estimates and the final state. -/
def runSteps {α : Type} [LinearOrderedField α] :
    OnlineDTW α → List (List α) → List ℕ × OnlineDTW α
  | s, [] => ([], s)
  | s, x :: xs =>
    let r := step s x
    let rest := runSteps r.2 xs
    (r.1 :: rest.1, rest.2)

/-- The per-index accumulated-cost update exactly as claim C1 words it:
inside the window `[max(0, p - radius), min(N, p + 2*radius))` the minimum
of `stay` (`old[i] + 2*cost[i]`), `advance by 1` (`old[i-1] + cost[i]`,
only for `i ≥ 1`) and `advance by 2` (`old[i-2] + 1.5*cost[i]`, only for
`i ≥ 2`), where `cost i` is the cosine distance
`1 - dot(reference[i], live_chroma)`; `+inf` outside the window. -/
def claimCost {α : Type} [LinearOrderedField α] (s : OnlineDTW α) (live : List α)
    (i : ℕ) : Cost α :=
  let c := 1 - dot (s.ref.getD i []) live
  if s.current_position - s.radius ≤ i ∧
      i < min s.ref.length (s.current_position + 2 * s.radius) then
    Cost.minC (Cost.add (s.accumulated_cost.getD i Cost.inf) (2 * c))
      (Cost.minC
        (if 1 ≤ i then Cost.add (s.accumulated_cost.getD (i - 1) Cost.inf) c
         else Cost.inf)
        (if 2 ≤ i then
          Cost.add (s.accumulated_cost.getD (i - 2) Cost.inf) ((3 / 2) * c)
         else Cost.inf))
  else Cost.inf

/-- The first-step update as claim C5 words it: only the `advance by 1`
transition is supposed to be available, so index `i` of the window would
receive `old[i-1] + cost[i]` for `i ≥ 1` and `+inf` otherwise. -/
def claimOnlyAdvance1 {α : Type} [LinearOrderedField α] (s : OnlineDTW α)
    (live : List α) (i : ℕ) : Cost α :=
  let c := 1 - dot (s.ref.getD i []) live
  if s.current_position - s.radius ≤ i ∧
      i < min s.ref.length (s.current_position + 2 * s.radius) then
    if 1 ≤ i then Cost.add (s.accumulated_cost.getD (i - 1) Cost.inf) c
    else Cost.inf
  else Cost.inf

end OnlineDTW

/-- Python's built-in `round` (round-half-to-even, "banker's rounding"),
applied by the source to `midi` values and to frame positions before
integer conversion; on the half-integer ties it picks the even
neighbour. -/
def pyRound {α : Type} [LinearOrderedField α] [FloorRing α] (x : α) : ℤ :=
  if x - (⌊x⌋ : α) < 1 / 2 then ⌊x⌋
  else if (1 : α) / 2 < x - (⌊x⌋ : α) then ⌊x⌋ + 1
  else if ⌊x⌋ % 2 = 0 then ⌊x⌋ else ⌊x⌋ + 1

namespace ChromaExtractor

/-- FFT bin centre frequencies `np.fft.rfftfreq(n_fft, 1/sample_rate)` for
the default extractor (`__init__`: `sample_rate = 44100`, `n_fft = 2048`):
`f_k = k * 44100 / 2048` for `k = 0 .. 1024`. -/
noncomputable def fftFreq (k : ℕ) : ℝ := (k : ℝ) * 44100 / 2048

/-- MIDI number of a frequency, `69 + 12 * np.log2(f / 440)`
(`alignment.py`, lines 115 and 160). -/
noncomputable def midiOfFreq (f : ℝ) : ℝ := 69 + 12 * Real.logb 2 (f / 440)

/-- Pitch-class bin of a frequency, `int(round(midi)) % 12` (lines 116 and
161); Python `%` on a positive modulus is Euclidean `emod`. -/
noncomputable def chromaIdx (f : ℝ) : ℤ := (pyRound (midiOfFreq f)).emod 12

/-- Pre-emphasis high-pass of `compute` (line 126):
`np.append(audio[0], audio[1:] - 0.97 * audio[:-1])`, applied only when
the frame has more than one sample. -/
def preEmphasis {α : Type} [LinearOrderedField α] (a : List α) : List α :=
  if 1 < a.length then
    a.headD 0 :: List.zipWith (fun x y => x - (97 / 100) * y) a.tail a.dropLast
  else a

/-- Zero-pad or truncate the frame to the analysis window `n_fft = 2048`
(lines 129-135). -/
def padTrunc {α : Type} [Zero α] (a : List α) : List α :=
  if a.length < 2048 then a ++ List.replicate (2048 - a.length) 0
  else a.take 2048

/-- Coefficient `n` of `np.hanning(2048)`:
`0.5 - 0.5 * cos(2*pi*n / 2047)`. -/
noncomputable def hanning (n : ℕ) : ℝ :=
  1 / 2 - 1 / 2 * Real.cos (2 * Real.pi * n / 2047)

/-- The windowed analysis frame of `compute` (line 137). -/
noncomputable def windowed (audio : List ℝ) : List ℝ :=
  List.zipWith (fun x w => x * w) (padTrunc (preEmphasis audio))
    ((List.range 2048).map hanning)

/-- Magnitude of bin `k` of `np.fft.rfft` of the windowed frame (line 140):
the absolute value of `Σ_n x_n * exp(-2*pi*i*k*n/2048)`. -/
noncomputable def fftMag (audio : List ℝ) (k : ℕ) : ℝ :=
  Complex.abs (((List.range 2048).map (fun n =>
    (((windowed audio).getD n 0 : ℝ) : ℂ) *
      Complex.exp (-(2 * Real.pi * Complex.I * (k : ℂ) * (n : ℂ) / 2048)))).sum)

/-- The unnormalised chroma vector of `compute` (line 143):
`np.dot(fft, chroma_filter)`.  The filter (`_build_chroma_filter`,
lines 104-120) sends every FFT bin whose frequency is at least `50 Hz` to
its pitch class with weight `1`, and drops lower bins
(`if f < 50: continue`; the `f > 0` guard is subsumed). -/
noncomputable def chromaRaw (audio : List ℝ) : List ℝ :=
  (List.range 12).map (fun (c : ℕ) =>
    ((List.range 1025).map (fun (k : ℕ) =>
      if 50 ≤ fftFreq k ∧ chromaIdx (fftFreq k) = (c : ℤ) then fftMag audio k
      else 0)).sum)

/-- L2 norm of a vector, `np.linalg.norm`. -/
noncomputable def l2norm (l : List ℝ) : ℝ :=
  Real.sqrt ((l.map (fun x => x ^ 2)).sum)

/-- The guarded normalisation shared by `compute` (lines 146-148) and
`compute_from_f0` (lines 166-168): divide by the L2 norm only when it is
positive, otherwise leave the vector untouched. -/
noncomputable def normalizeL2 (l : List ℝ) : List ℝ :=
  if 0 < l2norm l then l.map (fun x => x / l2norm l) else l

/-- `ChromaExtractor.compute` (lines 122-150): pre-emphasis, pad/truncate,
Hann window, magnitude FFT, chroma mapping, guarded L2 normalisation. -/
noncomputable def compute (audio : List ℝ) : List ℝ :=
  normalizeL2 (chromaRaw audio)

/-- `ChromaExtractor.compute_from_f0` (lines 152-169): a 12-slot zero
vector with `confidence` written at the pitch-class bin of `f0` when
`f0 > 30 and confidence > 0.1`, then the guarded L2 normalisation.
Writing at bin `chromaIdx f0` (which lies in `[0, 12)`) is rendered as a
positional map over the 12 slots. -/
noncomputable def compute_from_f0 (f0 confidence : ℝ) : List ℝ :=
  let chroma : List ℝ :=
    if 30 < f0 ∧ 1 / 10 < confidence then
      (List.range 12).map (fun (i : ℕ) => if (i : ℤ) = chromaIdx f0 then confidence else 0)
    else List.replicate 12 0
  normalizeL2 chroma

end ChromaExtractor

/-- A dynamically-typed field of an incoming note event: `num q` is a
Python value whose `float(...)` conversion yields the finite float `q`,
`nan` a float NaN, and `bad` a value on which `float()`/`int()` raises
`TypeError` or `ValueError`. -/
inductive RawValue where
  | num (q : ℚ)
  | nan
  | bad
deriving DecidableEq

/-- Python `float(v)`: `some (some q)` is a finite float, `some none` NaN,
`none` an exception. -/
def rawToFloat : RawValue → Option (Option ℚ)
  | .num q => some (some q)
  | .nan => some none
  | .bad => none

/-- Python `int(v)`: truncation toward zero on numbers; raises (`none`) on
NaN and on non-coercible values. -/
def rawToInt : RawValue → Option ℤ
  | .num q => some (if 0 ≤ q then ⌊q⌋ else ⌈q⌉)
  | .nan => none
  | .bad => none

/-- A validated note event `[start, dur, pitch, note_id]` as stored in
`ScoreFollower.events`.  Note ids are opaque tags to everything modelled
here; they are carried in the integer slot (line 214 coerces them with
`int`, defaulting to `-1` when absent). -/
abbrev NoteEvent := ℚ × ℚ × ℤ × ℤ

/-- Per-event validation of `load_score_from_midi_events` (lines 206-219):
a truthy event with at least three fields, coercible to
(`float` start, `float` dur, `int` pitch, optional `int` id defaulting to
`-1`), with NaN start/duration rejected; any failure drops the event
(`try`/`except` continue). -/
def parseEvent (e : List RawValue) : Option NoteEvent :=
  if 3 ≤ e.length then
    match rawToFloat (e.getD 0 .bad), rawToFloat (e.getD 1 .bad),
        rawToInt (e.getD 2 .bad),
        (if 3 < e.length then rawToInt (e.getD 3 .bad) else some (-1)) with
    | some (some s), some (some d), some p, some nid => some (s, d, p, nid)
    | _, _, _, _ => none
  else none

/-- The surviving events of the validation loop (line 207-219). -/
def validEvents (events : List (List RawValue)) : List NoteEvent :=
  events.filterMap parseEvent

/-- Total-duration computation of lines 229-242: running maximum of
`start + dur` over the valid events, seeded with `0`. -/
def totalDuration (evs : List NoteEvent) : ℚ :=
  evs.foldl (fun m e => max m (e.1 + e.2.1)) 0

/-- Frame count of the reference grid (lines 249-250):
`int(np.ceil(total_duration * fps)) + 5` with `fps = 10`; for the positive
durations that reach this line the ceiling is positive, so the `ℕ` cast is
exact. -/
def nFrames (td : ℚ) : ℕ := (⌈td * 10⌉).toNat + 5

/-- Effective stop index of a Python slice `l[a : b]` of a length-`n`
array once `b` has already been clamped above by `n`: a negative `b`
wraps once around the end (`b + n`, floored at `0`). -/
def sliceStop (stop n : ℤ) : ℤ :=
  if stop < 0 then max 0 (n + stop) else stop

/-- Whether the fill loop (lines 256-262) paints cell `(r, c)` of the
`n`-row grid for event `e`: `start_frame = int(round(start * 10))`,
`end_frame = int(round((start + dur) * 10))`, painted column
`pitch % 12`, rows `start_frame ≤ r` below the slice stop
`min(end_frame + 1, n)`, all under the guard `0 <= start_frame < n`. -/
def paints (n : ℕ) (e : NoteEvent) (r c : ℕ) : Bool :=
  let startFrame := pyRound (e.1 * 10)
  let endFrame := pyRound ((e.1 + e.2.1) * 10)
  let stop := sliceStop (min (endFrame + 1) (n : ℤ)) (n : ℤ)
  decide (0 ≤ startFrame) && decide (startFrame < (n : ℤ)) &&
    decide ((c : ℤ) = e.2.2.1.emod 12) &&
    decide (startFrame ≤ (r : ℤ)) && decide ((r : ℤ) < stop)

/-- The reference matrix filled by lines 253-262 as a 0/1 matrix: the grid
starts as `np.zeros((n_frames, 12))` and every write stores the constant
`1.0`, so a cell is `1` exactly when some valid event paints it. -/
def refMatrixQ (evs : List NoteEvent) : List (List ℚ) :=
  let n := nFrames (totalDuration evs)
  (List.range n).map (fun r =>
    (List.range 12).map (fun c => if evs.any (fun e => paints n e r c) then 1 else 0))

/-- Row-wise normalisation of lines 268-269:
`np.divide(ref, norm, out=np.zeros_like(ref), where=norm > 0)` — a row
with positive L2 norm is divided by it, a row with zero norm keeps the
zero row of `out`. -/
noncomputable def normalizeRow (row : List ℝ) : List ℝ :=
  if 0 < ChromaExtractor.l2norm row then
    row.map (fun x => x / ChromaExtractor.l2norm row)
  else List.replicate row.length 0

/-- The normalised real reference matrix loaded by line 271. -/
noncomputable def refMatrixR (evs : List NoteEvent) : List (List ℝ) :=
  (refMatrixQ evs).map (fun row => normalizeRow (row.map (fun (q : ℚ) => (q : ℝ))))

/-- State of `ScoreFollower` (lines 171-179): stored note events, the
optional DTW engine, the readiness flag.  The chroma extractor itself is
stateless here (all its parameters are the constructor defaults).
`events` only exists after a score load; `get_active_notes` treats the
missing attribute as the empty list, which the `[]` initialisation
models. -/
structure ScoreFollower (α : Type) where
  events : List NoteEvent
  dtw : Option (OnlineDTW α)
  is_ready : Bool

namespace ScoreFollower

/-- `ScoreFollower.__init__` (lines 175-179). -/
def mkInit (α : Type) : ScoreFollower α := ⟨[], none, false⟩

/-- `ScoreFollower.load_score_features` (lines 181-188): hands the feature
matrix to a fresh engine, requesting `radius=100` (which
`OnlineDTW.__init__` overrides with `50`), and marks the follower
ready. -/
def load_score_features {α : Type} [LinearOrderedField α]
    (sf : ScoreFollower α) (features : List (List α)) : ScoreFollower α :=
  { sf with dtw := some (OnlineDTW.init features 100), is_ready := true }

/-- `ScoreFollower.load_score_from_midi_events` (lines 190-271): filter and
clean the raw events; abort unchanged when no valid event remains; store
the valid events; abort (events stored, engine untouched) when the total
duration is non-positive; otherwise load the painted 0/1 reference
(line 265) and then load the row-normalised reference (line 271) — the
second load overwrites the first, so the engine ends up on the normalised
matrix. -/
noncomputable def load_score_from_midi_events (sf : ScoreFollower ℝ)
    (events : List (List RawValue)) : ScoreFollower ℝ :=
  let ve := validEvents events
  if ve = [] then sf
  else
    let sf1 := { sf with events := ve }
    if totalDuration ve ≤ 0 then sf1
    else
      let sf2 := sf1.load_score_features
        ((refMatrixQ ve).map (fun row => row.map (fun (q : ℚ) => (q : ℝ))))
      sf2.load_score_features (refMatrixR ve)

/-- `ScoreFollower.get_active_notes` (lines 273-290): linear scan keeping
the stored events whose interval `[start - 0.1, start + dur + 0.1]`
contains the query time.  Stored events always carry the four fields the
`len(event) >= 4` guard requires, and the returned dictionaries hold
exactly the four stored fields, so the events themselves are returned. -/
def get_active_notes {α : Type} (sf : ScoreFollower α) (time : ℚ) :
    List NoteEvent :=
  sf.events.filter (fun e =>
    decide (e.1 - 1 / 10 ≤ time) && decide (time ≤ e.1 + e.2.1 + 1 / 10))

/-- `ScoreFollower.process_frame` (lines 297-317): when not ready, the
neutral `(0.0, np.zeros(12))`; otherwise full-spectrum chroma extraction,
one DTW step, and the frame-to-time conversion `frame_idx * 0.1`.  (A
ready follower always holds an engine; the unreachable `ready`-but-no-dtw
state is mapped to the neutral result.) -/
noncomputable def process_frame (sf : ScoreFollower ℝ) (audio : List ℝ) :
    ℝ × List ℝ × ScoreFollower ℝ :=
  match sf.is_ready, sf.dtw with
  | true, some d =>
    let chroma := ChromaExtractor.compute audio
    let r := OnlineDTW.step d chroma
    (((r.1 : ℕ) : ℝ) * (1 / 10), chroma, { sf with dtw := some r.2 })
  | _, _ => (0, List.replicate 12 0, sf)

/-- `np.max` of a chroma vector (every reachable call passes a nonempty
array; `numpy` raises on an empty one). -/
def maxList {α : Type} [LinearOrder α] [Zero α] : List α → α
  | [] => 0
  | x :: xs => xs.foldl max x

/-- `ScoreFollower.check_chroma_hit` (lines 319-356): reject wrong-sized
input, low energy (`max < 0.3`) and low peakiness
(`max / (mean + 1e-6) < 2.5`); then accept when the target pitch-class bin
exceeds the threshold or the target plus its two neighbours exceed
`threshold * 1.5`. -/
def check_chroma_hit {α : Type} [LinearOrderedField α] (chroma : List α)
    (target_pitch : ℤ) (threshold : α) : Bool :=
  if chroma.length ≠ 12 then false
  else if maxList chroma < 3 / 10 then false
  else
    let meanVal := chroma.sum / 12 + 1 / 1000000
    let peakiness := maxList chroma / meanVal
    if peakiness < 5 / 2 then false
    else
      let targetIdx := target_pitch.emod 12
      let energy := chroma.getD targetIdx.toNat 0
      let left := chroma.getD ((targetIdx - 1).emod 12).toNat 0
      let right := chroma.getD ((targetIdx + 1).emod 12).toNat 0
      if threshold < energy then true
      else if threshold * (3 / 2) < left + energy + right then true
      else false

end ScoreFollower

/-- Availability and behaviour of the pluggable pitch-estimation tiers of
`pitch.py`: the RMVPE engine (ready or not; its `predict` may raise,
modelled by `Except`), CREPE (importable or not; `ok none` models a
successful call returning no frames), and the always-total classical
fallback (`_fallback_pitch` catches every exception internally and
`_yin_custom` is pure arithmetic). -/
structure PitchTiers (α : Type) where
  rmvpeReady : Bool
  rmvpe : List α → Except Unit (α × α)
  hasCrepe : Bool
  crepe : List α → Except Unit (Option (α × α))
  fallback : List α → α × α

/-- `PitchTracker.predict` (`pitch.py`, lines 48-92): frames shorter than
1024 samples return `(0.0, 0.0)` before any estimator is consulted; then
RMVPE is tried (accepted when its confidence exceeds `0.1`, exceptions
caught and logged), then CREPE (exceptions and empty outputs fall
through), finally the classical fallback. -/
def PitchTracker.predict {α : Type} [LinearOrderedField α]
    (tiers : PitchTiers α) (audio : List α) : α × α :=
  if audio.length < 1024 then (0, 0)
  else
    let rmvpeResult : Option (α × α) :=
      if tiers.rmvpeReady then
        match tiers.rmvpe audio with
        | .ok (freq, conf) => if 1 / 10 < conf then some (freq, conf) else none
        | .error _ => none
      else none
    match rmvpeResult with
    | some r => r
    | none =>
      if tiers.hasCrepe then
        match tiers.crepe audio with
        | .ok (some r) => r
        | .ok none => tiers.fallback audio
        | .error _ => tiers.fallback audio
      else tiers.fallback audio

/-- A capability configuration with no estimator tier available (the state
of the repository's `guitar-pro` tree, whose `mir` package ships no
`rmvpe.py`). -/
def noTiers (α : Type) [LinearOrderedField α] : PitchTiers α :=
  ⟨false, fun _ => .error (), false, fun _ => .ok none, fun _ => (0, 0)⟩

/-! Helper lemmas about list indexing. -/

theorem getD_range_map {β : Type} (n : ℕ) (f : ℕ → β) (d : β) (i : ℕ) :
    ((List.range n).map f).getD i d = if i < n then f i else d := by
  by_cases h : i < n
  · rw [if_pos h, List.getD_eq_getElem _ _ (by simpa using h)]
    rw [List.getElem_map, List.getElem_range]
  · rw [if_neg h]
    exact List.getD_eq_default _ _ (by simpa using Nat.le_of_not_lt h)

theorem getD_drop_take {β : Type} (l : List β) (s k j : ℕ) (d : β) (hj : j < k) :
    ((l.drop s).take k).getD j d = l.getD (s + j) d := by
  rw [List.getD_eq_getElem?_getD, List.getD_eq_getElem?_getD,
    List.getElem?_take, if_pos hj, List.getElem?_drop]

theorem getD_map_of_lt {β γ : Type} (l : List β) (f : β → γ) (i : ℕ)
    (db : β) (dg : γ) (h : i < l.length) :
    (l.map f).getD i dg = f (l.getD i db) := by
  rw [List.getD_eq_getElem _ _ (by simpa using h), List.getD_eq_getElem _ _ h]
  simp

namespace Cost

/-! Order and argmin facts about extended costs. -/

theorem minC_inf_right {α : Type} [LinearOrder α] (a : Cost α) : minC a inf = a := by
  cases a <;> rfl

theorem minC_assoc {α : Type} [LinearOrder α] (a b c : Cost α) :
    minC (minC a b) c = minC a (minC b c) := by
  cases a <;> cases b <;> cases c <;> simp [minC, min_assoc]

theorem leB_refl {α : Type} [LinearOrder α] (a : Cost α) : leB a a = true := by
  cases a <;> simp [leB]

theorem leB_trans {α : Type} [LinearOrder α] {a b c : Cost α}
    (h1 : leB a b = true) (h2 : leB b c = true) : leB a c = true := by
  cases a <;> cases b <;> cases c <;> simp_all [leB]
  all_goals exact le_trans h1 h2

theorem ltB_leB {α : Type} [LinearOrder α] {a b : Cost α}
    (h : ltB a b = true) : leB a b = true := by
  cases a <;> cases b <;> simp_all [ltB, leB]
  all_goals exact le_of_lt h

theorem not_ltB_leB {α : Type} [LinearOrder α] {a b : Cost α}
    (h : ltB a b = false) : leB b a = true := by
  cases a <;> cases b <;> simp_all [ltB, leB]

theorem scanMin_leB {α : Type} [LinearOrder α] :
    ∀ (l : List (Cost α)) (best : Cost α),
      leB (scanMin best l) best = true ∧ ∀ x ∈ l, leB (scanMin best l) x = true := by
  intro l
  induction l with
  | nil => intro best; exact ⟨leB_refl best, by intro x hx; cases hx⟩
  | cons x xs ih =>
    intro best
    by_cases h : ltB x best = true
    · have hrec := ih x
      have hsc : scanMin best (x :: xs) = scanMin x xs := by
        simp [scanMin, h]
      constructor
      · rw [hsc]; exact leB_trans hrec.1 (ltB_leB h)
      · intro y hy
        rw [hsc]
        rcases List.mem_cons.mp hy with hy0 | hy1
        · rw [hy0]; exact hrec.1
        · exact hrec.2 y hy1
    · have hF : ltB x best = false := by
        cases hv : ltB x best
        · rfl
        · exact absurd hv h
      have hrec := ih best
      have hsc : scanMin best (x :: xs) = scanMin best xs := by
        simp [scanMin, hF]
      constructor
      · rw [hsc]; exact hrec.1
      · intro y hy
        rw [hsc]
        rcases List.mem_cons.mp hy with hy0 | hy1
        · rw [hy0]; exact leB_trans hrec.1 (not_ltB_leB hF)
        · exact hrec.2 y hy1

theorem argminGo_spec {α : Type} [LinearOrder α] :
    ∀ (xs : List (Cost α)) (best : Cost α) (bi i : ℕ),
      (argminGo best bi i xs = bi ∧ scanMin best xs = best) ∨
      (∃ k, k < xs.length ∧ argminGo best bi i xs = i + k ∧
        scanMin best xs = xs.getD k inf) := by
  intro xs
  induction xs with
  | nil => intro best bi i; exact Or.inl ⟨rfl, rfl⟩
  | cons x xs ih =>
    intro best bi i
    by_cases h : ltB x best = true
    · have hgo : argminGo best bi i (x :: xs) = argminGo x i (i + 1) xs := by
        simp [argminGo, h]
      have hsc : scanMin best (x :: xs) = scanMin x xs := by
        simp [scanMin, h]
      rcases ih x i (i + 1) with ⟨h1, h2⟩ | ⟨k, hk, h1, h2⟩
      · refine Or.inr ⟨0, by simp, ?_, ?_⟩
        · rw [hgo, h1]; omega
        · rw [hsc, h2]; rfl
      · refine Or.inr ⟨k + 1, by simpa using hk, ?_, ?_⟩
        · rw [hgo, h1]; omega
        · rw [hsc, h2]; rfl
    · have hF : ltB x best = false := by
        cases hv : ltB x best
        · rfl
        · exact absurd hv h
      have hgo : argminGo best bi i (x :: xs) = argminGo best bi (i + 1) xs := by
        simp [argminGo, hF]
      have hsc : scanMin best (x :: xs) = scanMin best xs := by
        simp [scanMin, hF]
      rcases ih best bi (i + 1) with ⟨h1, h2⟩ | ⟨k, hk, h1, h2⟩
      · exact Or.inl ⟨by rw [hgo, h1], by rw [hsc, h2]⟩
      · refine Or.inr ⟨k + 1, by simpa using hk, ?_, ?_⟩
        · rw [hgo, h1]; omega
        · rw [hsc, h2]; rfl

theorem argmin_spec {α : Type} [LinearOrder α] (x : Cost α) (xs : List (Cost α)) :
    argmin (x :: xs) < (x :: xs).length ∧
    ∀ j, j < (x :: xs).length →
      leB ((x :: xs).getD (argmin (x :: xs)) inf) ((x :: xs).getD j inf) = true := by
  have hval : argmin (x :: xs) < (x :: xs).length ∧
      (x :: xs).getD (argmin (x :: xs)) inf = scanMin x xs := by
    have h := argminGo_spec xs x 0 1
    rcases h with ⟨h1, h2⟩ | ⟨k, hk, h1, h2⟩
    · constructor
      · show argminGo x 0 1 xs < xs.length + 1
        rw [h1]; omega
      · show (x :: xs).getD (argminGo x 0 1 xs) inf = scanMin x xs
        rw [h1, h2]; rfl
    · constructor
      · show argminGo x 0 1 xs < xs.length + 1
        rw [h1]; omega
      · show (x :: xs).getD (argminGo x 0 1 xs) inf = scanMin x xs
        rw [h1, h2, Nat.add_comm 1 k]
        rfl
  refine ⟨hval.1, ?_⟩
  intro j hj
  rw [hval.2]
  have hsc := scanMin_leB xs x
  match j with
  | 0 => exact hsc.1
  | j + 1 =>
    have hjl : j < xs.length := by simpa using hj
    have hmem : xs.getD j inf ∈ xs := by
      rw [List.getD_eq_getElem xs inf hjl]
      exact List.getElem_mem hjl
    exact hsc.2 _ hmem

end Cost

namespace OnlineDTW

/-! Characterisation of one `step` of the engine. -/

theorem newAccumulated_getD {α : Type} [LinearOrderedField α] (s : OnlineDTW α)
    (live : List α) (i : ℕ) :
    (newAccumulated s live).getD i Cost.inf =
      if i < s.accumulated_cost.length ∧ stepStart s ≤ i ∧ i < stepEnd s then
        entryCost s.accumulated_cost (costVec s live) i
      else Cost.inf := by
  unfold newAccumulated
  rw [getD_range_map]
  by_cases h : i < s.accumulated_cost.length
  · rw [if_pos h]
    by_cases hw : stepStart s ≤ i ∧ i < stepEnd s
    · rw [if_pos hw, if_pos ⟨h, hw⟩]
    · rw [if_neg hw, if_neg (by tauto)]
  · rw [if_neg h, if_neg (by tauto)]

theorem entryCost_eq {α : Type} [LinearOrderedField α] (acc : List (Cost α))
    (cv : List α) (i : ℕ) (hi : i < acc.length) :
    entryCost acc cv i =
      Cost.minC (Cost.add (acc.getD i Cost.inf) (2 * cv.getD i 0))
        (Cost.minC
          (if 1 ≤ i then Cost.add (acc.getD (i - 1) Cost.inf) (cv.getD i 0)
           else Cost.inf)
          (if 2 ≤ i then Cost.add (acc.getD (i - 2) Cost.inf) ((3 / 2) * cv.getD i 0)
           else Cost.inf)) := by
  unfold entryCost
  match i with
  | 0 => simp [Cost.minList, Cost.minC_inf_right, mul_comm, hi]
  | 1 => simp [Cost.minList, Cost.minC_inf_right, mul_comm, hi]
  | (n + 2) => simp [Cost.minList, Cost.minC_assoc, mul_comm, hi]

theorem newAccumulated_eq_claim {α : Type} [LinearOrderedField α]
    (s : OnlineDTW α) (live : List α)
    (hlen : s.accumulated_cost.length = s.ref.length) (i : ℕ) :
    (newAccumulated s live).getD i Cost.inf = claimCost s live i := by
  rw [newAccumulated_getD]
  unfold claimCost
  have hwin : (stepStart s ≤ i ∧ i < stepEnd s) ↔
      (s.current_position - s.radius ≤ i ∧
        i < min s.ref.length (s.current_position + 2 * s.radius)) := by
    unfold stepStart stepEnd
    constructor <;> intro h <;> exact ⟨h.1, by omega⟩
  by_cases hw : stepStart s ≤ i ∧ i < stepEnd s
  · have hiN : i < s.ref.length := lt_of_lt_of_le hw.2 (Nat.min_le_left _ _)
    have hiA : i < s.accumulated_cost.length := by rw [hlen]; exact hiN
    rw [if_pos ⟨hiA, hw⟩, if_pos (hwin.mp hw), entryCost_eq _ _ _ hiA]
    have hcv : (costVec s live).getD i 0 = 1 - dot (s.ref.getD i []) live := by
      unfold costVec
      exact getD_map_of_lt s.ref _ i [] 0 hiN
    rw [hcv]
  · rw [if_neg (by tauto), if_neg (fun hc => hw (hwin.mpr hc))]

theorem step_argmin {α : Type} [LinearOrderedField α] (s : OnlineDTW α)
    (live : List α) (hlen : s.accumulated_cost.length = s.ref.length)
    (hpos : s.current_position < s.ref.length) (hrad : 0 < s.radius) :
    stepStart s ≤ (step s live).1 ∧ (step s live).1 < stepEnd s ∧
    ∀ j, stepStart s ≤ j → j < stepEnd s →
      Cost.leB ((newAccumulated s live).getD (step s live).1 Cost.inf)
        ((newAccumulated s live).getD j Cost.inf) = true := by
  have hna : (newAccumulated s live).length = s.ref.length := by
    unfold newAccumulated
    simp [hlen]
  have hEndN : stepEnd s ≤ s.ref.length := Nat.min_le_left _ _
  have hse : stepStart s < stepEnd s := by
    unfold stepStart stepEnd
    omega
  have hsl : ((((newAccumulated s live).drop (stepStart s)).take
      (stepEnd s - stepStart s))).length = stepEnd s - stepStart s := by
    rw [List.length_take, List.length_drop, hna]
    omega
  obtain ⟨x, xs, hxxs⟩ := List.exists_cons_of_ne_nil
    (l := ((newAccumulated s live).drop (stepStart s)).take (stepEnd s - stepStart s))
    (by intro hnil; rw [hnil] at hsl; simp at hsl; omega)
  have hspec := Cost.argmin_spec x xs
  rw [← hxxs] at hspec
  rw [hxxs] at hsl
  have hbest : (step s live).1 = stepStart s +
      Cost.argmin (((newAccumulated s live).drop (stepStart s)).take
        (stepEnd s - stepStart s)) := rfl
  have hargLt : Cost.argmin (((newAccumulated s live).drop (stepStart s)).take
      (stepEnd s - stepStart s)) < stepEnd s - stepStart s := by
    have := hspec.1
    rw [hxxs] at this ⊢
    omega
  refine ⟨by rw [hbest]; exact Nat.le_add_right _ _, by rw [hbest]; omega, ?_⟩
  intro j hj1 hj2
  have hjd : (newAccumulated s live).getD j Cost.inf =
      (((newAccumulated s live).drop (stepStart s)).take
        (stepEnd s - stepStart s)).getD (j - stepStart s) Cost.inf := by
    rw [getD_drop_take _ _ _ _ _ (by omega)]
    congr 1
    omega
  have hbd : (newAccumulated s live).getD (step s live).1 Cost.inf =
      (((newAccumulated s live).drop (stepStart s)).take
        (stepEnd s - stepStart s)).getD
        (Cost.argmin (((newAccumulated s live).drop (stepStart s)).take
          (stepEnd s - stepStart s))) Cost.inf := by
    rw [hbest, getD_drop_take _ _ _ _ _ (by omega)]
  rw [hjd, hbd]
  have hjlen : j - stepStart s <
      ((((newAccumulated s live).drop (stepStart s)).take
        (stepEnd s - stepStart s))).length := by
    rw [hxxs]
    omega
  exact hspec.2 (j - stepStart s) hjlen

theorem runSteps_pres {α : Type} [LinearOrderedField α] :
    ∀ (inputs : List (List α)) (s : OnlineDTW α),
      (runSteps s inputs).2.ref = s.ref ∧ (runSteps s inputs).2.radius = s.radius := by
  intro inputs
  induction inputs with
  | nil => intro s; exact ⟨rfl, rfl⟩
  | cons x xs ih =>
    intro s
    have h := ih (step s x).2
    simpa [runSteps] using h

theorem initAcc_getD {α : Type} [Zero α] (n i : ℕ) :
    (initAcc (α := α) n).getD i Cost.inf =
      if i = 0 ∧ i < n then Cost.fin 0 else Cost.inf := by
  unfold initAcc
  rw [getD_range_map]
  by_cases h : i < n
  · rw [if_pos h]
    by_cases h0 : i = 0
    · subst h0
      simp [h]
    · simp [h0]
  · rw [if_neg h, if_neg (by tauto)]

theorem initAcc_length {α : Type} [Zero α] (n : ℕ) :
    (initAcc (α := α) n).length = n := by
  unfold initAcc
  simp

theorem initAcc_eq_cons {α : Type} [Zero α] (n : ℕ) (hn : 0 < n) :
    initAcc (α := α) n = Cost.fin 0 :: List.replicate (n - 1) Cost.inf := by
  match n, hn with
  | (m + 1), _ =>
    unfold initAcc
    rw [List.range_succ_eq_map]
    simp [Function.comp_def]

/-- C1: for every engine state that satisfies the constructor's invariants
(cost array as long as the reference, position inside the reference,
positive radius) and every live chroma vector, `step` computes the
cosine-distance cost vector `cost[i] = 1 - dot(reference[i], live_chroma)`
over the entire reference and fills each slot of the window
`[max(0, p - radius), min(N, p + 2*radius))` with the minimum of
`old[i] + 2*cost[i]` (stay), `old[i-1] + cost[i]` for `i ≥ 1` (advance by
1) and `old[i-2] + 1.5*cost[i]` for `i ≥ 2` (advance by 2) — restated
verbatim by `claimCost` — leaves `+inf` outside the window, and both
returns and stores as `current_position` an argmin of the new accumulated
cost restricted to that window. -/
theorem step_matches_claim {α : Type} [LinearOrderedField α] (s : OnlineDTW α)
    (live : List α) (hlen : s.accumulated_cost.length = s.ref.length)
    (hpos : s.current_position < s.ref.length) (hrad : 0 < s.radius) :
    (∀ i, (step s live).2.accumulated_cost.getD i Cost.inf = claimCost s live i)
    ∧ (step s live).2.current_position = (step s live).1
    ∧ s.current_position - s.radius ≤ (step s live).1
    ∧ (step s live).1 < min s.ref.length (s.current_position + 2 * s.radius)
    ∧ ∀ j, s.current_position - s.radius ≤ j →
        j < min s.ref.length (s.current_position + 2 * s.radius) →
        Cost.leB ((step s live).2.accumulated_cost.getD (step s live).1 Cost.inf)
          ((step s live).2.accumulated_cost.getD j Cost.inf) = true := by
  have hacc : (step s live).2.accumulated_cost = newAccumulated s live := rfl
  have harg := step_argmin s live hlen hpos hrad
  have hw : stepEnd s = min s.ref.length (s.current_position + 2 * s.radius) := by
    unfold stepEnd
    rw [Nat.mul_comm]
  refine ⟨fun i => by rw [hacc]; exact newAccumulated_eq_claim s live hlen i,
    rfl, harg.1, ?_, ?_⟩
  · rw [← hw]
    exact harg.2.1
  · intro j hj1 hj2
    exact harg.2.2 j hj1 (by rw [hw]; exact hj2)

/-- Witness for C1: the hypotheses hold for a fresh engine on a concrete
two-frame reference over `ℚ`, and the theorem then yields the window-slot
formula at index `0`. -/
theorem step_matches_claim_witness :
    ((OnlineDTW.init [[(1 : ℚ)], [0]] 50).accumulated_cost.length
        = (OnlineDTW.init [[(1 : ℚ)], [0]] 50).ref.length)
    ∧ ((OnlineDTW.init [[(1 : ℚ)], [0]] 50).current_position
        < (OnlineDTW.init [[(1 : ℚ)], [0]] 50).ref.length)
    ∧ (0 < (OnlineDTW.init [[(1 : ℚ)], [0]] 50).radius)
    ∧ ((step (OnlineDTW.init [[(1 : ℚ)], [0]] 50) [1]).2.accumulated_cost.getD 0
          Cost.inf
        = claimCost (OnlineDTW.init [[(1 : ℚ)], [0]] 50) [1] 0) := by
  have h1 : (OnlineDTW.init [[(1 : ℚ)], [0]] 50).accumulated_cost.length
      = (OnlineDTW.init [[(1 : ℚ)], [0]] 50).ref.length := by
    simp [OnlineDTW.init, initAcc_length]
  have h2 : (OnlineDTW.init [[(1 : ℚ)], [0]] 50).current_position
      < (OnlineDTW.init [[(1 : ℚ)], [0]] 50).ref.length := by
    simp [OnlineDTW.init]
  have h3 : 0 < (OnlineDTW.init [[(1 : ℚ)], [0]] 50).radius := by
    simp [OnlineDTW.init]
  exact ⟨h1, h2, h3, (step_matches_claim (OnlineDTW.init [[(1 : ℚ)], [0]] 50) [1]
    h1 h2 h3).1 0⟩

/-- C10: the constructor ignores its `radius` argument — the stored radius
is `50` for every requested `r`, it stays `50` across arbitrarily many
steps, and the engine that `ScoreFollower.load_score_features` builds
(requesting `radius=100`) therefore performs every step with radius
`50`. -/
theorem radius_ignored {α : Type} [LinearOrderedField α]
    (reference : List (List α)) (r : ℕ) (inputs : List (List α))
    (sf : ScoreFollower α) (features : List (List α)) :
    (init reference r).radius = 50
    ∧ (runSteps (init reference r) inputs).2.radius = 50
    ∧ (sf.load_score_features features).dtw = some (init features 100)
    ∧ (runSteps (init features 100) inputs).2.radius = 50 := by
  refine ⟨rfl, ?_, rfl, ?_⟩
  · rw [(runSteps_pres inputs (init reference r)).2]
    rfl
  · rw [(runSteps_pres inputs (init features 100)).2]
    rfl

/-- C2: the engine is deterministic and `reset` fully reinitialises it.
Two fresh engines on the same reference (with arbitrary — and ignored —
radius requests) produce identical position sequences and final
accumulated-cost arrays on the same input sequence; an engine that ran an
arbitrary prefix and is then `reset` behaves exactly like a fresh one; and
`reset` leaves `current_position = 0` with cost array `[0, inf, inf, …]`. -/
theorem deterministic_reset {α : Type} [LinearOrderedField α]
    (reference : List (List α)) (r1 r2 : ℕ) (pre inputs : List (List α))
    (hne : reference ≠ []) :
    runSteps (init reference r1) inputs = runSteps (init reference r2) inputs
    ∧ runSteps (reset (runSteps (init reference r1) pre).2) inputs
        = runSteps (init reference r1) inputs
    ∧ (reset (runSteps (init reference r1) pre).2).current_position = 0
    ∧ (reset (runSteps (init reference r1) pre).2).accumulated_cost
        = Cost.fin 0 :: List.replicate (reference.length - 1) Cost.inf := by
  have hpres := runSteps_pres pre (init reference r1)
  have hreset : reset (runSteps (init reference r1) pre).2 = init reference r1 := by
    rcases hS : (runSteps (init reference r1) pre).2 with ⟨sr, sa, sp, sc⟩
    rw [hS] at hpres
    simp only [init] at hpres
    show OnlineDTW.mk sr sa 0 (initAcc sr.length) = _
    rw [hpres.1, hpres.2]
    rfl
  refine ⟨rfl, by rw [hreset], by rw [hreset]; rfl, ?_⟩
  rw [hreset]
  show initAcc reference.length = _
  exact initAcc_eq_cons reference.length (List.length_pos.mpr hne)

/-- Witness for C2 at a concrete one-frame reference over `ℚ`, with two
different requested radii, a nonempty prefix and a nonempty input
sequence. -/
theorem deterministic_reset_witness :
    (([[(1 : ℚ)]] : List (List ℚ)) ≠ [])
    ∧ (reset (runSteps (init ([[(1 : ℚ)]] : List (List ℚ)) 7) [[1]]).2).current_position
        = 0 := by
  have h := deterministic_reset ([[(1 : ℚ)]] : List (List ℚ)) 7 100 [[1]] [[0]]
    (by simp)
  exact ⟨by simp, h.2.2.1⟩

/-- C5 (amended): on the first step after `reset` (`current_position = 0`)
the search window clamps to `[0, min(N, 2*radius))`, but the `stay` and
`advance by 2` transitions are not unavailable: the seed
`accumulated_cost = [0, inf, inf, …]` makes `stay` productive at window
index `0` (new cost `2*cost[0]`) and `advance by 2` productive at window
index `2` (new cost `1.5*cost[2]`), `advance by 1` productive at index `1`
(new cost `cost[1]`), while every other window index stays `+inf`. -/
theorem first_step_after_reset {α : Type} [LinearOrderedField α]
    (s : OnlineDTW α) (live : List α) (hN : 0 < s.ref.length) :
    stepStart (reset s) = 0
    ∧ stepEnd (reset s) = min s.ref.length (2 * (reset s).radius)
    ∧ ∀ i, i < stepEnd (reset s) →
        (step (reset s) live).2.accumulated_cost.getD i Cost.inf =
          (if i = 0 then Cost.fin (2 * (1 - dot (s.ref.getD 0 []) live))
           else if i = 1 then Cost.fin (1 - dot (s.ref.getD 1 []) live)
           else if i = 2 then Cost.fin ((3 / 2) * (1 - dot (s.ref.getD 2 []) live))
           else Cost.inf) := by
  have hss : stepStart (reset s) = 0 := by
    unfold stepStart reset
    simp
  have hee : stepEnd (reset s) = min s.ref.length (2 * (reset s).radius) := by
    unfold stepEnd reset
    simp [Nat.mul_comm]
  refine ⟨hss, hee, ?_⟩
  intro i hi
  have hiN : i < s.ref.length := lt_of_lt_of_le hi (Nat.min_le_left _ _)
  have hlen : (reset s).accumulated_cost.length = s.ref.length := by
    show (initAcc s.ref.length).length = s.ref.length
    exact initAcc_length _
  have hacc : (step (reset s) live).2.accumulated_cost
      = newAccumulated (reset s) live := rfl
  rw [hacc, newAccumulated_getD,
    if_pos ⟨by rw [hlen]; exact hiN, by rw [hss]; omega, hi⟩]
  have hcv : (costVec (reset s) live).getD i 0 = 1 - dot (s.ref.getD i []) live := by
    show ((s.ref.map (fun row => 1 - dot row live)).getD i 0) = _
    exact getD_map_of_lt s.ref _ i [] 0 hiN
  show entryCost (initAcc s.ref.length) (costVec (reset s) live) i = _
  rw [entryCost_eq _ _ _ (by rw [initAcc_length]; exact hiN), hcv]
  match i with
  | 0 =>
    simp only [initAcc_getD]
    simp [hiN, Cost.add, Cost.minC, Cost.fin, Cost.inf]
  | 1 =>
    have h0 : 0 < s.ref.length := by omega
    simp only [initAcc_getD]
    simp [h0, Cost.add, Cost.minC, Cost.fin, Cost.inf]
  | 2 =>
    have h0 : 0 < s.ref.length := by omega
    simp only [initAcc_getD]
    simp [h0, Cost.add, Cost.minC, Cost.fin, Cost.inf]
  | (n + 3) =>
    simp only [initAcc_getD]
    simp [Cost.add, Cost.minC, Cost.fin, Cost.inf]

/-- Witness for C5's amended statement: a concrete three-frame reference
over `ℚ` satisfies the hypothesis, and the theorem yields the window
clamp. -/
theorem first_step_after_reset_witness :
    (0 < ([[(1 : ℚ)], [1], [1]] : List (List ℚ)).length)
    ∧ stepStart (reset (init ([[(1 : ℚ)], [1], [1]] : List (List ℚ)) 50)) = 0 := by
  have h := first_step_after_reset (init ([[(1 : ℚ)], [1], [1]] : List (List ℚ)) 50)
    [1] (by simp [init])
  exact ⟨by simp, h.1⟩

/-- Counterexample to C5 as stated: on the very first step after reset the
`stay` transition does contribute — at window index `0` the engine stores
the finite value `2*cost[0]` (here `0`), not the `+inf` that the
advance-by-1-only update restated by `claimOnlyAdvance1` would give. -/
theorem first_step_claim_counterexample :
    (step (reset (init ([[(1 : ℚ)], [1], [1]] : List (List ℚ)) 50))
        [1]).2.accumulated_cost.getD 0 Cost.inf
      ≠ claimOnlyAdvance1 (reset (init ([[(1 : ℚ)], [1], [1]] : List (List ℚ)) 50))
          [1] 0 := by
  have h := first_step_after_reset (init ([[(1 : ℚ)], [1], [1]] : List (List ℚ)) 50)
    [1] (by simp [init])
  have hL := h.2.2 0 (by rw [h.2.1]; simp [reset, init])
  rw [hL]
  norm_num [claimOnlyAdvance1, reset, init, dot, Cost.add, Cost.inf, Cost.fin]
  exact Option.some_ne_none _

end OnlineDTW

theorem foldl_max_replicate {α : Type} [LinearOrder α] (n : ℕ) (v : α) :
    List.foldl max v (List.replicate n v) = v := by
  induction n with
  | zero => rfl
  | succ m ih => simp [List.replicate_succ, ih]

theorem foldl_max_le_add_sum {α : Type} [LinearOrderedField α] :
    ∀ (xs : List α) (acc : α), 0 ≤ acc → (∀ x ∈ xs, 0 ≤ x) →
      List.foldl max acc xs ≤ acc + xs.sum := by
  intro xs
  induction xs with
  | nil => intro acc _ _; simp
  | cons y ys ih =>
    intro acc hacc hpos
    have hy : 0 ≤ y := hpos y (List.mem_cons_self _ _)
    have hys : ∀ x ∈ ys, 0 ≤ x := fun x hx => hpos x (List.mem_cons_of_mem _ hx)
    have h1 : List.foldl max (max acc y) ys ≤ max acc y + ys.sum :=
      ih _ (le_trans hacc (le_max_left _ _)) hys
    have h2 : max acc y ≤ acc + y := max_le (by linarith) (by linarith)
    calc List.foldl max acc (y :: ys) = List.foldl max (max acc y) ys := rfl
      _ ≤ max acc y + ys.sum := h1
      _ ≤ acc + y + ys.sum := by linarith
      _ = acc + (y :: ys).sum := by rw [List.sum_cons]; ring

namespace ScoreFollower

theorem maxList_le_sum {α : Type} [LinearOrderedField α] (x : α) (xs : List α)
    (hpos : ∀ y ∈ x :: xs, 0 ≤ y) : maxList (x :: xs) ≤ (x :: xs).sum := by
  have h := foldl_max_le_add_sum xs x (hpos x (List.mem_cons_self _ _))
    (fun y hy => hpos y (List.mem_cons_of_mem _ hy))
  calc maxList (x :: xs) = List.foldl max x xs := rfl
    _ ≤ x + xs.sum := h
    _ = (x :: xs).sum := by rw [List.sum_cons]

theorem maxList_replicate {α : Type} [LinearOrder α] [Zero α] (n : ℕ) (v : α)
    (hn : 0 < n) : maxList (List.replicate n v) = v := by
  match n, hn with
  | (m + 1), _ =>
    rw [List.replicate_succ]
    show List.foldl max v (List.replicate m v) = v
    exact foldl_max_replicate m v

/-- C7: `get_active_notes` returns exactly the stored events whose closed
interval `[start - 0.1, start + dur + 0.1]` contains the query time
(membership characterisation over every loaded follower), and on the
single stored event `(start 0, dur 1, pitch 69, id n)` it returns that
event precisely for `-0.1 ≤ t ≤ 1.1` and the empty list outside that
interval.  (The string id "n1" of the spec's example is an opaque tag; the
stored id slot is the integer tag `n`.) -/
theorem get_active_notes_spec {α : Type} (sf : ScoreFollower α) (t : ℚ)
    (e : NoteEvent) (n : ℤ) :
    (e ∈ sf.get_active_notes t ↔
      e ∈ sf.events ∧ e.1 - 1 / 10 ≤ t ∧ t ≤ e.1 + e.2.1 + 1 / 10)
    ∧ ((ScoreFollower.mk (α := α) [(0, 1, 69, n)] none false).get_active_notes t
        = if -(1 / 10) ≤ t ∧ t ≤ 11 / 10 then [(0, 1, 69, n)] else []) := by
  constructor
  · unfold get_active_notes
    rw [List.mem_filter]
    simp [and_assoc]
  · unfold get_active_notes
    by_cases h : -(1 / 10 : ℚ) ≤ t ∧ t ≤ 11 / 10
    · rw [if_pos h]
      norm_num [List.filter, h.1, h.2]
    · rw [if_neg h]
      rcases not_and_or.mp h with h1 | h1
      · norm_num [List.filter, h1]
      · norm_num [List.filter, h1]

/-- C8: `check_chroma_hit` answers `false` for every 12-slot nonnegative
chroma vector whose maximum is below `0.3` or whose peakiness (maximum
over mean) is below `2.5`, whatever the target pitch and threshold — the
rejection fires before any target-bin check — and in particular it answers
`false` on every uniform vector, for every uniform value, target and
threshold. -/
theorem check_chroma_hit_rejects {α : Type} [LinearOrderedField α] :
    (∀ (chroma : List α) (target_pitch : ℤ) (threshold : α),
      chroma.length = 12 → (∀ x ∈ chroma, 0 ≤ x) →
      (maxList chroma < 3 / 10 ∨ maxList chroma / (chroma.sum / 12) < 5 / 2) →
      check_chroma_hit chroma target_pitch threshold = false)
    ∧ ∀ (v threshold : α) (target_pitch : ℤ),
        check_chroma_hit (List.replicate 12 v) target_pitch threshold = false := by
  have main : ∀ (chroma : List α) (target_pitch : ℤ) (threshold : α),
      chroma.length = 12 → (∀ x ∈ chroma, 0 ≤ x) →
      (maxList chroma < 3 / 10 ∨ maxList chroma / (chroma.sum / 12) < 5 / 2) →
      check_chroma_hit chroma target_pitch threshold = false := by
    intro chroma target_pitch threshold hlen hpos hrej
    unfold check_chroma_hit
    rw [if_neg (by simp [hlen])]
    by_cases hsmall : maxList chroma < 3 / 10
    · rw [if_pos hsmall]
    · rw [if_neg hsmall]
      have hratio : maxList chroma / (chroma.sum / 12) < 5 / 2 := by
        rcases hrej with h | h
        · exact absurd h hsmall
        · exact h
      have hmaxpos : 0 < maxList chroma := by
        have : (3 : α) / 10 ≤ maxList chroma := le_of_not_lt hsmall
        linarith
      have hsum : maxList chroma ≤ chroma.sum := by
        match chroma, hlen with
        | (x :: xs), _ => exact maxList_le_sum x xs hpos
      have hmeanpos : 0 < chroma.sum / 12 :=
        div_pos (lt_of_lt_of_le hmaxpos hsum) (by norm_num)
      have hlt : maxList chroma / (chroma.sum / 12 + 1 / 1000000) <
          maxList chroma / (chroma.sum / 12) :=
        div_lt_div_of_pos_left hmaxpos hmeanpos (by linarith)
      rw [if_pos (by linarith)]
  refine ⟨main, ?_⟩
  intro v threshold target_pitch
  have hlen : (List.replicate 12 v).length = 12 := by simp
  by_cases hv : v < 3 / 10
  · unfold check_chroma_hit
    rw [if_neg (by simp [hlen]), if_pos (by rw [maxList_replicate 12 v (by omega)]; exact hv)]
  · have hvpos : (0 : α) < v := by
      have : (3 : α) / 10 ≤ v := le_of_not_lt hv
      linarith
    unfold check_chroma_hit
    rw [if_neg (by simp [hlen]), if_neg (by rw [maxList_replicate 12 v (by omega)]; exact hv)]
    have hsum : (List.replicate 12 v).sum = 12 * v := by
      rw [List.sum_replicate]
      simp [nsmul_eq_mul]
    have hratio : maxList (List.replicate 12 v) /
        ((List.replicate 12 v).sum / 12 + 1 / 1000000) < 5 / 2 := by
      rw [maxList_replicate 12 v (by omega), hsum]
      have h12 : (12 : α) * v / 12 = v := by ring
      rw [h12]
      have hlt1 : v / (v + 1 / 1000000) < 1 :=
        (div_lt_one (by linarith)).mpr (by linarith)
      linarith
    rw [if_pos hratio]

/-- Witness for C8: the theorem's first component applies to the concrete
uniform low-energy vector `replicate 12 (1/10)` over `ℚ`. -/
theorem check_chroma_hit_rejects_witness :
    ((List.replicate 12 ((1 : ℚ) / 10)).length = 12)
    ∧ (maxList (List.replicate 12 ((1 : ℚ) / 10)) < 3 / 10)
    ∧ check_chroma_hit (List.replicate 12 ((1 : ℚ) / 10)) 9 (6 / 10) = false := by
  have h1 : (List.replicate 12 ((1 : ℚ) / 10)).length = 12 := by simp
  have h2 : ∀ x ∈ List.replicate 12 ((1 : ℚ) / 10), 0 ≤ x := by
    intro x hx
    rw [List.eq_of_mem_replicate hx]
    norm_num
  have h3 : maxList (List.replicate 12 ((1 : ℚ) / 10)) < 3 / 10 := by
    rw [maxList_replicate 12 _ (by omega)]
    norm_num
  exact ⟨h1, h3,
    (check_chroma_hit_rejects).1 (List.replicate 12 ((1 : ℚ) / 10)) 9 (6 / 10)
      h1 h2 (Or.inl h3)⟩

end ScoreFollower

/-- C9: an audio frame shorter than 1024 samples makes `predict` return
`(0, 0)` immediately, for every configuration of available estimator
tiers; `predict` is a total function into value pairs (tier exceptions are
caught inside it), so no exception escapes. -/
theorem PitchTracker.predict_short_input {α : Type} [LinearOrderedField α]
    (tiers : PitchTiers α) (audio : List α) (h : audio.length < 1024) :
    PitchTracker.predict tiers audio = (0, 0) := by
  unfold PitchTracker.predict
  rw [if_pos h]

/-- Witness for C9 on the empty frame with no tier available. -/
theorem PitchTracker.predict_short_input_witness :
    (([] : List ℚ).length < 1024)
    ∧ PitchTracker.predict (noTiers ℚ) [] = (0, 0) :=
  ⟨by simp, PitchTracker.predict_short_input (noTiers ℚ) [] (by simp)⟩

namespace ChromaExtractor

/-! Norm facts about the guarded L2 normalisation. -/

theorem sumSq_nonneg (l : List ℝ) : 0 ≤ (l.map (fun x => x ^ 2)).sum := by
  apply List.sum_nonneg
  intro x hx
  obtain ⟨y, _, rfl⟩ := List.mem_map.mp hx
  positivity

theorem l2norm_nonneg (l : List ℝ) : 0 ≤ l2norm l := Real.sqrt_nonneg _

theorem normalizeL2_length (l : List ℝ) : (normalizeL2 l).length = l.length := by
  unfold normalizeL2
  split <;> simp

theorem l2norm_map_div (l : List ℝ) (h : 0 < l2norm l) :
    l2norm (l.map (fun x => x / l2norm l)) = 1 := by
  have hS : 0 ≤ (l.map (fun x => x ^ 2)).sum := sumSq_nonneg l
  have hSpos : 0 < (l.map (fun x => x ^ 2)).sum := by
    by_contra hc
    have hS0 : (l.map (fun x => x ^ 2)).sum = 0 := le_antisymm (le_of_not_lt hc) hS
    unfold l2norm at h
    rw [hS0, Real.sqrt_zero] at h
    exact lt_irrefl 0 h
  have hn2 : l2norm l ^ 2 = (l.map (fun x => x ^ 2)).sum := Real.sq_sqrt hS
  have hstep : (l.map (fun x => x / l2norm l)).map (fun x => x ^ 2)
      = l.map (fun x => x ^ 2 * (1 / l2norm l ^ 2)) := by
    rw [List.map_map]
    congr 1
    funext x
    simp only [Function.comp_apply]
    rw [div_pow, div_eq_mul_one_div]
  calc l2norm (l.map (fun x => x / l2norm l))
      = Real.sqrt (((l.map (fun x => x / l2norm l)).map (fun x => x ^ 2)).sum) := rfl
    _ = Real.sqrt ((l.map (fun x => x ^ 2 * (1 / l2norm l ^ 2))).sum) := by
          rw [hstep]
    _ = Real.sqrt ((l.map (fun x => x ^ 2)).sum * (1 / l2norm l ^ 2)) := by
          rw [List.sum_map_mul_right]
    _ = Real.sqrt 1 := by rw [hn2, mul_one_div, div_self (ne_of_gt hSpos)]
    _ = 1 := Real.sqrt_one

theorem l2norm_replicate_zero (n : ℕ) : l2norm (List.replicate n (0 : ℝ)) = 0 := by
  unfold l2norm
  simp

theorem l2norm_normalizeL2 (l : List ℝ) :
    l2norm (normalizeL2 l) = 0 ∨ l2norm (normalizeL2 l) = 1 := by
  unfold normalizeL2
  by_cases h : 0 < l2norm l
  · right
    rw [if_pos h]
    exact l2norm_map_div l h
  · left
    rw [if_neg h]
    have h1 := l2norm_nonneg l
    linarith [le_of_not_lt h]

theorem sum_map_range_onehot (n : ℕ) (idx : ℤ) (c : ℝ) (h0 : 0 ≤ idx)
    (hlt : idx < (n : ℤ)) :
    ((List.range n).map (fun (i : ℕ) => if (i : ℤ) = idx then c else 0)).sum = c := by
  induction n with
  | zero =>
    exfalso
    omega
  | succ m ih =>
    rw [List.range_succ, List.map_append, List.sum_append]
    simp only [List.map_cons, List.map_nil, List.sum_cons, List.sum_nil]
    by_cases hc : (m : ℤ) = idx
    · have hpre : ((List.range m).map
          (fun (i : ℕ) => if (i : ℤ) = idx then c else 0)).sum = 0 := by
        apply List.sum_eq_zero
        intro x hx
        obtain ⟨i, hi, rfl⟩ := List.mem_map.mp hx
        have hne : (i : ℤ) ≠ idx := by
          have := List.mem_range.mp hi
          omega
        simp [hne]
      rw [hpre, if_pos hc]
      ring
    · have hlt' : idx < (m : ℤ) := by omega
      rw [ih hlt', if_neg hc]
      ring

/-- C3: for every real-valued audio frame, `compute` returns a 12-slot
vector whose L2 norm is exactly `0` or `1`, and for every
`(f0, confidence)` input `compute_from_f0` likewise returns a 12-slot
vector of L2 norm `0` or `1`.  The division is guarded by `norm > 0`, so
no NaN can arise: in this real-valued embedding the guarded branch leaves
the vector untouched instead of dividing by zero. -/
theorem compute_norm_invariant :
    (∀ audio : List ℝ, (compute audio).length = 12 ∧
      (l2norm (compute audio) = 0 ∨ l2norm (compute audio) = 1))
    ∧ ∀ f0 confidence : ℝ, (compute_from_f0 f0 confidence).length = 12 ∧
      (l2norm (compute_from_f0 f0 confidence) = 0 ∨
        l2norm (compute_from_f0 f0 confidence) = 1) := by
  constructor
  · intro audio
    have he : compute audio = normalizeL2 (chromaRaw audio) := rfl
    constructor
    · rw [he, normalizeL2_length]
      unfold chromaRaw
      simp
    · rw [he]
      exact l2norm_normalizeL2 _
  · intro f0 confidence
    have he : compute_from_f0 f0 confidence
        = normalizeL2 (if 30 < f0 ∧ 1 / 10 < confidence then
            (List.range 12).map
              (fun (i : ℕ) => if (i : ℤ) = chromaIdx f0 then confidence else 0)
          else List.replicate 12 0) := rfl
    constructor
    · rw [he, normalizeL2_length]
      split <;> simp
    · rw [he]
      exact l2norm_normalizeL2 _

/-- C6: `compute_from_f0` returns the all-zero 12-vector exactly when
`f0 ≤ 30` or `confidence ≤ 0.1`; otherwise it returns a one-hot vector
with value exactly `1` at pitch-class bin
`round(69 + 12*log2(f0/440)) mod 12` (Python's half-even `round`); in
particular at `(440, 1)` the entire mass sits in bin `9`, the "A"
pitch class. -/
theorem compute_from_f0_spec (f0 confidence : ℝ) :
    ((f0 ≤ 30 ∨ confidence ≤ 1 / 10) →
      compute_from_f0 f0 confidence = List.replicate 12 0)
    ∧ (30 < f0 → 1 / 10 < confidence →
      compute_from_f0 f0 confidence
        = (List.range 12).map (fun (i : ℕ) =>
            if (i : ℤ) = (pyRound (69 + 12 * Real.logb 2 (f0 / 440))).emod 12
            then (1 : ℝ) else 0))
    ∧ compute_from_f0 440 1
        = (List.range 12).map (fun (i : ℕ) => if i = 9 then (1 : ℝ) else 0) := by
  have honehot : ∀ g0 c0 : ℝ, 30 < g0 → 1 / 10 < c0 →
      compute_from_f0 g0 c0 = (List.range 12).map
        (fun (i : ℕ) => if (i : ℤ) = chromaIdx g0 then (1 : ℝ) else 0) := by
    intro g0 c0 h1 h2
    have hcpos : 0 < c0 := by linarith
    have he : compute_from_f0 g0 c0 = normalizeL2 ((List.range 12).map
        (fun (i : ℕ) => if (i : ℤ) = chromaIdx g0 then c0 else 0)) := by
      unfold compute_from_f0
      rw [if_pos ⟨h1, h2⟩]
    rw [he]
    have hidx0 : 0 ≤ chromaIdx g0 := Int.emod_nonneg _ (by norm_num)
    have hidx12 : chromaIdx g0 < 12 := Int.emod_lt_of_pos _ (by norm_num)
    have hsq : ((List.range 12).map
          (fun (i : ℕ) => if (i : ℤ) = chromaIdx g0 then c0 else 0)).map (fun x => x ^ 2)
        = (List.range 12).map
          (fun (i : ℕ) => if (i : ℤ) = chromaIdx g0 then c0 ^ 2 else 0) := by
      rw [List.map_map]
      congr 1
      funext i
      simp only [Function.comp_apply]
      split <;> simp
    have hS : l2norm ((List.range 12).map
        (fun (i : ℕ) => if (i : ℤ) = chromaIdx g0 then c0 else 0)) = c0 := by
      unfold l2norm
      rw [hsq, sum_map_range_onehot 12 _ _ hidx0 (by exact_mod_cast hidx12)]
      exact Real.sqrt_sq (le_of_lt hcpos)
    unfold normalizeL2
    rw [hS, if_pos hcpos, List.map_map]
    congr 1
    funext i
    simp only [Function.comp_apply]
    split
    · exact div_self (ne_of_gt hcpos)
    · exact zero_div _
  refine ⟨?_, ?_, ?_⟩
  · intro hcond
    have hnot : ¬ (30 < f0 ∧ 1 / 10 < confidence) := by
      rcases hcond with h | h
      · intro hc
        linarith [hc.1]
      · intro hc
        linarith [hc.2]
    have he : compute_from_f0 f0 confidence = normalizeL2 (List.replicate 12 0) := by
      unfold compute_from_f0
      rw [if_neg hnot]
    have hz : l2norm (List.replicate 12 (0 : ℝ)) = 0 := by
      unfold l2norm
      simp
    rw [he]
    unfold normalizeL2
    rw [hz]
    norm_num
  · intro h1 h2
    exact honehot f0 confidence h1 h2
  · have hidx : chromaIdx 440 = 9 := by
      unfold chromaIdx midiOfFreq
      have h440 : (440 : ℝ) / 440 = 1 := by norm_num
      rw [h440, Real.logb_one]
      norm_num [pyRound]
    rw [honehot 440 1 (by norm_num) (by norm_num)]
    congr 1
    funext i
    rw [hidx]
    by_cases h : i = 9
    · simp [h]
    · have h2 : ¬ ((i : ℤ) = 9) := fun hc => h (by exact_mod_cast hc)
      simp [h, h2]

/-- Witness for C6: the all-zero branch at the concrete rejected input
`(20, 1)`. -/
theorem compute_from_f0_spec_witness :
    ((20 : ℝ) ≤ 30 ∨ (1 : ℝ) ≤ 1 / 10)
    ∧ compute_from_f0 20 1 = List.replicate 12 0 :=
  ⟨Or.inl (by norm_num), (compute_from_f0_spec 20 1).1 (Or.inl (by norm_num))⟩

end ChromaExtractor

/-! Shape and norm facts about the reference builder. -/

theorem normalizeRow_length (row : List ℝ) :
    (normalizeRow row).length = row.length := by
  unfold normalizeRow
  split <;> simp

theorem l2norm_normalizeRow (row : List ℝ) :
    ChromaExtractor.l2norm (normalizeRow row) = 0 ∨
      ChromaExtractor.l2norm (normalizeRow row) = 1 := by
  unfold normalizeRow
  by_cases h : 0 < ChromaExtractor.l2norm row
  · right
    rw [if_pos h]
    exact ChromaExtractor.l2norm_map_div row h
  · left
    rw [if_neg h]
    exact ChromaExtractor.l2norm_replicate_zero _

theorem refMatrixQ_row_length (evs : List NoteEvent) :
    ∀ row ∈ refMatrixQ evs, row.length = 12 := by
  intro row hrow
  unfold refMatrixQ at hrow
  obtain ⟨r, _, rfl⟩ := List.mem_map.mp hrow
  simp

theorem refMatrixR_length (evs : List NoteEvent) :
    (refMatrixR evs).length = (⌈totalDuration evs * 10⌉).toNat + 5 := by
  unfold refMatrixR refMatrixQ nFrames
  simp

theorem refMatrixR_rows (evs : List NoteEvent) :
    ∀ row ∈ refMatrixR evs, row.length = 12 ∧
      (ChromaExtractor.l2norm row = 0 ∨ ChromaExtractor.l2norm row = 1) := by
  intro row hrow
  unfold refMatrixR at hrow
  obtain ⟨qrow, hq, rfl⟩ := List.mem_map.mp hrow
  constructor
  · rw [normalizeRow_length]
    simp [refMatrixQ_row_length evs qrow hq]
  · exact l2norm_normalizeRow _

namespace ScoreFollower

/-- C4: after `load_score_from_midi_events` with at least one surviving
valid event (invalid or NaN-carrying events having been dropped
non-fatally by the validation embedded in `validEvents`) and positive
total duration, the follower is ready, its engine holds the normalised
reference matrix with exactly `ceil(total_duration * 10) + 5` rows of 12
columns, every row of L2 norm `0` or `1`, and `process_frame` reports
`estimated_time = frame_index * 0.1` seconds for the frame index returned
by the engine's step on that frame's chroma — the 10 Hz grid and the
0.1 s/frame conversion staying coupled. -/
theorem load_midi_spec (sf : ScoreFollower ℝ) (raw : List (List RawValue))
    (hv : validEvents raw ≠ []) (htd : 0 < totalDuration (validEvents raw)) :
    (load_score_from_midi_events sf raw).is_ready = true
    ∧ (load_score_from_midi_events sf raw).dtw
        = some (OnlineDTW.init (refMatrixR (validEvents raw)) 100)
    ∧ (refMatrixR (validEvents raw)).length
        = (⌈totalDuration (validEvents raw) * 10⌉).toNat + 5
    ∧ (∀ row ∈ refMatrixR (validEvents raw), row.length = 12 ∧
        (ChromaExtractor.l2norm row = 0 ∨ ChromaExtractor.l2norm row = 1))
    ∧ ∀ audio : List ℝ,
        (process_frame (load_score_from_midi_events sf raw) audio).1
          = ((OnlineDTW.step (OnlineDTW.init (refMatrixR (validEvents raw)) 100)
              (ChromaExtractor.compute audio)).1 : ℝ) * (1 / 10) := by
  have he : load_score_from_midi_events sf raw
      = { events := validEvents raw,
          dtw := some (OnlineDTW.init (refMatrixR (validEvents raw)) 100),
          is_ready := true } := by
    simp only [load_score_from_midi_events]
    rw [if_neg hv, if_neg (not_le.mpr htd)]
    rfl
  refine ⟨by rw [he], by rw [he], refMatrixR_length _, refMatrixR_rows _, ?_⟩
  intro audio
  rw [he]
  rfl

/-- Witness for C4 on the single three-field raw event
`[start 0, dur 2, pitch 69]`. -/
theorem load_midi_spec_witness :
    (validEvents [[RawValue.num 0, RawValue.num 2, RawValue.num 69]] ≠ [])
    ∧ (0 < totalDuration
        (validEvents [[RawValue.num 0, RawValue.num 2, RawValue.num 69]]))
    ∧ (load_score_from_midi_events (mkInit ℝ)
        [[RawValue.num 0, RawValue.num 2, RawValue.num 69]]).is_ready = true := by
  have hpe : parseEvent [RawValue.num 0, RawValue.num 2, RawValue.num 69]
      = some (0, 2, 69, -1) := by
    norm_num [parseEvent, rawToFloat, rawToInt]
  have hve : validEvents [[RawValue.num 0, RawValue.num 2, RawValue.num 69]]
      = [(0, 2, 69, -1)] := by
    simp [validEvents, hpe]
  have hv : validEvents [[RawValue.num 0, RawValue.num 2, RawValue.num 69]] ≠ [] := by
    rw [hve]
    simp
  have htd : 0 < totalDuration
      (validEvents [[RawValue.num 0, RawValue.num 2, RawValue.num 69]]) := by
    rw [hve]
    norm_num [totalDuration, lt_max_iff]
  exact ⟨hv, htd, (load_midi_spec (mkInit ℝ)
    [[RawValue.num 0, RawValue.num 2, RawValue.num 69]] hv htd).1⟩

end ScoreFollower

end Qin
